import Mathlib

/-!
# Verification of the whatsnew update-resolution algorithm

Shallow embedding of `whatsnew.go` (package `whatsnew`, jbowes/whatsnew)
together with the parts of its dependency `golang.org/x/mod/semver`
(`Compare`, `IsValid`, `Prerelease`) that the package calls.

Strings are modelled as `List Char`; Go `time.Time`/`time.Duration`
values are modelled as integers (nanoseconds); the effectful
collaborators (cache store, release source) are modelled as explicit
run-environment data, and a run of `doWork` returns, besides the
value/error pair, a record of the observable effects (whether the cache
was read, whether the release source was invoked, the list of cache
writes performed).
-/

namespace Semver

/-! ## golang.org/x/mod/semver

Translation of the semver string functions used by whatsnew.
`parse` mirrors `semver.parse`; the prerelease comparison loop of
`comparePrerelease` walks dot-separated identifiers, embedded here by
splitting the identifier list up front (`splitDots`) and comparing the
identifier lists (`identListCmp`), which consumes identifiers exactly as
the Go loop does (each step drops the leading separator then takes the
identifier up to the next dot). -/

/-- Go `'0' <= c && c <= '9'`. -/
def goIsDigit (c : Char) : Bool := '0' ≤ c ∧ c ≤ '9'

/-- `semver.isIdentChar`. -/
def identChar (c : Char) : Bool :=
  ('A' ≤ c ∧ c ≤ 'Z') ∨ ('a' ≤ c ∧ c ≤ 'z') ∨ ('0' ≤ c ∧ c ≤ '9') ∨ c = '-'

/-- `semver.isNum`: the string is all digits. -/
def isNum (v : List Char) : Bool := v.all goIsDigit

/-- `semver.isBadNum`: all digits, longer than one character, leading zero. -/
def isBadNum (v : List Char) : Bool :=
  v.all goIsDigit ∧ 1 < v.length ∧ v.head? = some '0'

/-- `semver.parseInt`: a digit run with no leading zero (unless exactly "0"),
returning the run and the remainder. -/
def parseInt (v : List Char) : Option (List Char × List Char) :=
  match v with
  | [] => none
  | c :: _ =>
    if goIsDigit c then
      let t := v.takeWhile goIsDigit
      let rest := v.dropWhile goIsDigit
      if c = '0' ∧ t.length ≠ 1 then none else some (t, rest)
    else none

/-- Split a character list at the dots, keeping empty segments: the
identifier walk `start := i+1` of `semver.parsePrerelease` / `parseBuild`. -/
def splitDotsAux : List Char → List Char → List (List Char)
  | acc, [] => [acc.reverse]
  | acc, c :: rest =>
    if c = '.' then acc.reverse :: splitDotsAux [] rest
    else splitDotsAux (c :: acc) rest

/-- Dot-separated segments of a character list. -/
def splitDots (l : List Char) : List (List Char) := splitDotsAux [] l

/-- `semver.parsePrerelease`: the input starts with `-`; the identifier body
runs to the first `+` (or the end); every character is an identifier
character or a dot; every dot-separated identifier is nonempty and not a
numeric identifier with a leading zero. Returns the consumed text
(including the `-`) and the remainder. -/
def parsePre (v : List Char) : Option (List Char × List Char) :=
  match v with
  | '-' :: body0 =>
    let body := body0.takeWhile (fun c => c ≠ '+')
    let rest := body0.dropWhile (fun c => c ≠ '+')
    if body.all (fun c => identChar c ∨ c = '.') ∧
        (splitDots body).all (fun part => part ≠ [] ∧ ¬ isBadNum part) then
      some ('-' :: body, rest)
    else none
  | _ => none

/-- `semver.parseBuild`: the input starts with `+` and runs to the end;
every character is an identifier character or a dot; every dot-separated
segment is nonempty (leading zeros allowed). -/
def parseBuild (v : List Char) : Option (List Char × List Char) :=
  match v with
  | '+' :: body =>
    if body.all (fun c => identChar c ∨ c = '.') ∧
        (splitDots body).all (fun part => part ≠ []) then
      some ('+' :: body, [])
    else none
  | _ => none

/-- The fields of `semver.parsed` that influence `Compare`, `IsValid` and
`Prerelease` (the redundant `short` field is omitted). `prerelease`
includes its leading `-` and `build` its leading `+`, as in Go. -/
structure Parsed where
  major : List Char
  minor : List Char
  patch : List Char
  prerelease : List Char
  build : List Char
deriving DecidableEq, Repr

/-- `semver.parse`: `v`-prefixed `major[.minor[.patch[-pre][+build]]]`. -/
def parse (v : List Char) : Option Parsed :=
  match v with
  | 'v' :: v1 =>
    match parseInt v1 with
    | none => none
    | some (major, v2) =>
      match v2 with
      | [] => some ⟨major, ['0'], ['0'], [], []⟩
      | '.' :: v3 =>
        match parseInt v3 with
        | none => none
        | some (minor, v4) =>
          match v4 with
          | [] => some ⟨major, minor, ['0'], [], []⟩
          | '.' :: v5 =>
            match parseInt v5 with
            | none => none
            | some (patch, v6) =>
              match (match v6 with
                     | '-' :: _ => parsePre v6
                     | _ => some ([], v6)) with
              | none => none
              | some (pre, v7) =>
                match (match v7 with
                       | '+' :: _ => parseBuild v7
                       | _ => some ([], v7)) with
                | none => none
                | some (bld, v8) =>
                  if v8 = [] then some ⟨major, minor, patch, pre, bld⟩
                  else none
          | _ => none
      | _ => none
  | _ => none

/-- Go string `<` (byte-wise lexicographic; all characters here are ASCII). -/
def strLt : List Char → List Char → Bool
  | [], [] => false
  | [], _ :: _ => true
  | _ :: _, [] => false
  | a :: as, b :: bs => if a = b then strLt as bs else decide (a < b)

/-- `semver.compareInt`: equal strings are equal; otherwise shorter digit
strings are smaller; at equal length, lexicographic. -/
def compareInt (x y : List Char) : Int :=
  if x = y then 0
  else if x.length < y.length then -1
  else if y.length < x.length then 1
  else if strLt x y then -1 else 1

/-- The body of `semver.comparePrerelease`'s loop once the two current
identifiers differ: numeric identifiers sort below alphanumeric ones;
numeric identifiers sort by length then lexicographically; alphanumeric
ones lexicographically. -/
def identCmpNe (dx dy : List Char) : Int :=
  if (isNum dx) ≠ (isNum dy) then (if isNum dx then -1 else 1)
  else if isNum dx ∧ dx.length < dy.length then -1
  else if isNum dx ∧ dy.length < dx.length then 1
  else if strLt dx dy then -1 else 1

/-- The loop of `semver.comparePrerelease` on the dot-separated identifier
lists: pairwise identical identifiers are consumed; the first differing
pair decides via `identCmpNe`; if one side runs out first it is smaller
(the Go loop exits and returns `-1` exactly when `x` is exhausted). -/
def identListCmp : List (List Char) → List (List Char) → Int
  | [], _ => -1
  | _ :: _, [] => 1
  | dx :: xs, dy :: ys =>
    if dx = dy then identListCmp xs ys else identCmpNe dx dy

/-- `semver.comparePrerelease` (operands carry their leading `-`):
equal strings tie; an empty prerelease (a release version) is greater
than any nonempty one; otherwise the identifier lists are compared. -/
def comparePre (x y : List Char) : Int :=
  if x = y then 0
  else if x = [] then 1
  else if y = [] then -1
  else identListCmp (splitDots (x.drop 1)) (splitDots (y.drop 1))

/-- The valid-valid arm of `semver.Compare`: major, then minor, then patch,
then prerelease; build metadata is ignored. -/
def cmpParsed (p q : Parsed) : Int :=
  if compareInt p.major q.major ≠ 0 then compareInt p.major q.major
  else if compareInt p.minor q.minor ≠ 0 then compareInt p.minor q.minor
  else if compareInt p.patch q.patch ≠ 0 then compareInt p.patch q.patch
  else comparePre p.prerelease q.prerelease

/-- `semver.Compare`: an invalid version is below any valid one, and two
invalid versions tie. -/
def compare (v w : List Char) : Int :=
  match parse v, parse w with
  | none, none => 0
  | none, some _ => -1
  | some _, none => 1
  | some pv, some pw => cmpParsed pv pw

/-- `semver.IsValid`. -/
def isValidSem (v : List Char) : Bool := (parse v).isSome

/-- `semver.Prerelease`: the prerelease part (with leading `-`), or empty
when the version is invalid. -/
def prereleaseSem (v : List Char) : List Char :=
  match parse v with
  | some p => p.prerelease
  | none => []

end Semver

namespace Whatsnew

open Semver

/-! ## whatsnew.go -/

/-- `maybeV`: prepend a `v` when the string is nonempty and does not
already start with one. -/
def maybeV (v : List Char) : List Char :=
  match v with
  | [] => []
  | c :: _ => if c ≠ 'v' then 'v' :: v else v

/-- `cmp`: like `semver.Compare` except versions need not start with `v`. -/
def cmp (v1 v2 : List Char) : Int :=
  Semver.compare (maybeV v1) (maybeV v2)

/-- `isValid`. -/
def isValid (v1 : List Char) : Bool := isValidSem (maybeV v1)

/-- `isPrerelease`. -/
def isPrerelease (v1 : List Char) : Bool := prereleaseSem (maybeV v1) ≠ []

/-- `impl.Info`: the cache record. -/
structure Info where
  checkTime : Int
  version : List Char
  etag : List Char
deriving DecidableEq, Repr

/-- `impl.Release`: one release-source candidate. -/
structure Release where
  draft : Bool
  prerelease : Bool
  tagName : List Char
deriving DecidableEq, Repr

/-- A resolved cache store slot: the default file-backed store built from
the `Cache` path, or a caller-supplied custom store. -/
inductive CacherImpl
  | fileCacher (path : List Char)
  | custom (id : Nat)
deriving DecidableEq, Repr

/-- A resolved release source slot: the default GitHub source built from
the `Slug`, or a caller-supplied custom source. -/
inductive ReleaserImpl
  | gitHubReleaser (url : List Char)
  | custom (id : Nat)
deriving DecidableEq, Repr

/-- `whatsnew.Options`. `cacher = none` / `releaser = none` model the Go
nil interface slots. -/
structure GoOptions where
  slug : List Char
  cache : List Char
  version : List Char
  frequency : Int
  timeout : Int
  cacher : Option CacherImpl
  releaser : Option ReleaserImpl
deriving DecidableEq, Repr

/-- `DefaultFrequency`: one week, in nanoseconds. -/
def DefaultFrequency : Int := 7 * 24 * 60 * 60 * 1000000000

/-- `DefaultTimeout`: five seconds, in nanoseconds. -/
def DefaultTimeout : Int := 5 * 1000000000

/-- `NoTimeout`. -/
def NoTimeout : Int := -1

/-- The two `fmt.Errorf` values produced by `Options.resolve`; both wrap
`ErrMisconfiguredOptions` via `%w`. -/
inductive GoError
  | cacheAndCacherSet
  | releaserAndSlugSet
deriving DecidableEq, Repr

/-- `errors.Is(err, ErrMisconfiguredOptions)`: both resolve errors wrap it. -/
def GoError.wrapsMisconfigured : GoError → Bool := fun _ => true

/-- The GitHub releases URL built by `Options.resolve`. -/
def githubURL (slug : List Char) : List Char :=
  "https://api.github.com/repos/".data ++ slug ++ "/releases".data

/-- `Options.resolve`. Go mutates the options value in place; the embedding
returns the mutated value. The two mutual-exclusion checks run first and
return before any field is filled. -/
def GoOptions.resolve (o : GoOptions) : Except GoError GoOptions :=
  if o.cacher.isSome ∧ o.cache ≠ [] then .error .cacheAndCacherSet
  else if o.releaser.isSome ∧ o.slug ≠ [] then .error .releaserAndSlugSet
  else
    let o1 := if o.cacher.isNone then
        { o with cacher := some (.fileCacher o.cache) } else o
    let o2 := if o1.releaser.isNone then
        { o1 with releaser := some (.gitHubReleaser (githubURL o1.slug)) } else o1
    let o3 := if o2.frequency = 0 then { o2 with frequency := DefaultFrequency } else o2
    let o4 := if o3.timeout = 0 then { o3 with timeout := DefaultTimeout } else o3
    .ok o4

/-- One run's environment: the outcome the cache store's `Get` would
produce, the outcome the release source's `Get` would produce for a given
etag, and the sampled wall-clock time (`time.Now()`, nanoseconds). -/
structure RunEnv where
  cacheGet : Except Unit Info
  fetch : List Char → Except Unit (List Release × List Char)
  now : Int

/-- What a run of `doWork` returns and does: the returned version string
and error, the value of `nextVer` at the final comparison (the candidate
answer that proceeds to Finalize), and the observable effects. -/
structure RunOutput where
  v : List Char
  err : Option GoError
  candidate : List Char
  cacheReadDone : Bool
  releaserInvoked : Bool
  cacheWrites : List Info
deriving DecidableEq, Repr

/-- The cache record `doWork` proceeds with: the read record, or the zero
`impl.Info` when the read fails. -/
def readInfo : Except Unit Info → Info
  | .ok i => i
  | .error _ => ⟨0, [], []⟩

/-- One iteration of `doWork`'s selection loop: drafts, invalid tags and
prereleases (by flag or by tag) are skipped; an eligible tag replaces
`newVer` exactly when it compares strictly greater. -/
def selectStep (newVer : List Char) (rel : Release) : List Char :=
  if rel.draft then newVer
  else if ¬ isValid rel.tagName then newVer
  else if rel.prerelease ∨ isPrerelease rel.tagName then newVer
  else if cmp newVer rel.tagName < 0 then rel.tagName
  else newVer

/-- `doWork`'s selection loop: `var newVer string` then the `for` loop. -/
def selectNewVer (rels : List Release) : List Char :=
  rels.foldl selectStep []

/-- The final comparison of `doWork`: an update is reported only when the
candidate compares strictly above the current version, else empty. -/
def finalize (version nextVer : List Char) : List Char :=
  if 0 ≤ cmp version nextVer then [] else nextVer

/-- `doWork`. The context/timeout plumbing (lines 157–162) configures
`ctx` only and is not modelled; its observable effect (an abandoned fetch
behaving as a fetch error) is covered by `RunEnv.fetch` returning an
error. -/
def doWork (o : GoOptions) (env : RunEnv) : RunOutput :=
  match o.resolve with
  | .error e => ⟨[], some e, [], false, false, []⟩
  | .ok o =>
    let i := readInfo env.cacheGet
    if env.now - i.checkTime < o.frequency then
      ⟨finalize o.version i.version, none, i.version, true, false, []⟩
    else
      match env.fetch i.etag with
      | .error _ =>
        ⟨finalize o.version i.version, none, i.version, true, true, []⟩
      | .ok (rels, etag) =>
        if rels = [] then
          ⟨finalize o.version i.version, none, i.version, true, true,
            [{ checkTime := env.now, version := i.version, etag := etag }]⟩
        else
          let newVer := selectNewVer rels
          let nextVer := if cmp o.version newVer < 1 then newVer else o.version
          ⟨finalize o.version nextVer, none, nextVer, true, true,
            [{ checkTime := env.now, version := newVer, etag := etag }]⟩

/-- The result value a `Future` carries. -/
structure GoResult where
  v : List Char
  err : Option GoError
deriving DecidableEq, Repr

/-- `whatsnew.Future`: `c` is the single value the worker goroutine sends
on the channel; `r` is the memoized result, `none` until the first `Get`. -/
structure Future where
  c : GoResult
  r : Option GoResult
deriving DecidableEq, Repr

/-- `Future.Get`: returns the result, the updated handle, and whether this
call received from the channel. -/
def Future.get (f : Future) : GoResult × Future × Bool :=
  match f.r with
  | none => (f.c, { f with r := some f.c }, true)
  | some r => (r, f, false)

/-- Candidate eligibility, as the spec words it; shown equivalent to the
skip structure of `selectStep`. -/
def eligible (rel : Release) : Bool :=
  ¬ rel.draft ∧ isValid rel.tagName ∧ ¬ (rel.prerelease ∨ isPrerelease rel.tagName)

end Whatsnew

namespace Semver

/-- Join dot-separated segments back together; inverse of `splitDots`. -/
def joinDots : List (List Char) → List Char
  | [] => []
  | [p] => p
  | p :: ps => p ++ '.' :: joinDots ps

/-- Shape of every prerelease field `parse` can produce: empty, or
carrying its leading hyphen. -/
def PreWF (l : List Char) : Prop := l = [] ∨ ∃ b, l = '-' :: b

/-- `Parsed` values whose prerelease field has the shape `parse` produces. -/
def ParsedW := { p : Parsed // PreWF p.prerelease }

/-- `cmpParsed` on well-formed parsed values. -/
def cmpParsedW (p q : ParsedW) : Int := cmpParsed p.val q.val

end Semver

/-- The order laws an integer-valued three-way comparator satisfies:
reflexivity, antisymmetry, transitivity of the nonstrict relation, and
transitivity of ties. -/
structure IsCmp {α : Type _} (f : α → α → Int) : Prop where
  refl : ∀ a, f a a = 0
  antisym : ∀ a b, f a b = -(f b a)
  leTrans : ∀ a b c, f a b ≤ 0 → f b c ≤ 0 → f a c ≤ 0
  zeroTrans : ∀ a b c, f a b = 0 → f b c = 0 → f a c = 0

namespace Whatsnew

/-- The config-error outcome of a run: the error is returned before any
work, so no cache read, no fetch, and no cache write happens. -/
def errOutput (e : GoError) : RunOutput := ⟨[], some e, [], false, false, []⟩

/-- The candidate-answer rule exactly as claim C1 words it (for
comparison with what `doWork` computes): whichever of the selected
version and the cache's prior last-known version compares higher, a
comparator tie keeping the previously cached value. -/
def specCandidateAnswer (selected cachedPrior : List Char) : List Char :=
  if 0 < cmp selected cachedPrior then selected else cachedPrior

/-- Concrete options: slug set, no cache path, custom slots empty. -/
def exOptions : GoOptions :=
  ⟨"jbowes/whatsnew".data, [], "v1.0.0".data, 1, 1, none, none⟩

/-- `exOptions` after resolution: the default collaborators are filled in. -/
def exResolved : GoOptions :=
  { exOptions with
      cacher := some (.fileCacher []),
      releaser := some (.gitHubReleaser (githubURL "jbowes/whatsnew".data)) }

/-- Concrete options with a cache path instead of a slug. -/
def exOptionsCache : GoOptions :=
  ⟨[], "cache.json".data, "v1.0.0".data, 1, 1, none, none⟩

/-- Concrete misconfigured options: both a slug and a custom release source. -/
def exOptionsBad : GoOptions :=
  ⟨"jbowes/whatsnew".data, [], "v1.0.0".data, 1, 1, none, some (.custom 0)⟩

/-- A concrete cache record: last-known version above the current one. -/
def exInfo : Info := ⟨0, "v2.0.0".data, "E1".data⟩

/-- A concrete stable release candidate. -/
def exRel : Release := ⟨false, false, "v1.5.0".data⟩

/-- A concrete candidate list with several stable releases. -/
def exRels : List Release :=
  [⟨false, false, "v1.0.1".data⟩, ⟨false, false, "v1.1.1".data⟩,
   ⟨false, false, "v1.0.2".data⟩]

/-- A stale-cache environment whose fetch succeeds with one candidate. -/
def exEnv : RunEnv := ⟨.ok exInfo, fun _ => .ok ([exRel], "E2".data), 5⟩

/-- A fresh-cache environment (now = checkTime, interval 1). -/
def exEnvFresh : RunEnv := ⟨.ok exInfo, fun _ => .ok ([exRel], "E2".data), 0⟩

/-- A stale-cache environment whose fetch fails. -/
def exEnvErr : RunEnv := ⟨.ok exInfo, fun _ => .error (), 5⟩

/-- A stale-cache environment whose fetch reports no change (empty list). -/
def exEnvEmpty : RunEnv := ⟨.ok exInfo, fun _ => .ok ([], "E2".data), 5⟩

end Whatsnew

namespace Semver

/-! ## Order laws of the comparator -/

theorem strLt_irrefl (a : List Char) : strLt a a = false := by
  induction a with
  | nil => rfl
  | cons c cs ih => simpa [strLt] using ih

theorem strLt_asymm : ∀ a b : List Char, strLt a b = true → strLt b a = false
  | [], [] => by simp [strLt]
  | [], _ :: _ => by simp [strLt]
  | _ :: _, [] => by simp [strLt]
  | a :: as, b :: bs => by
    simp only [strLt]
    by_cases hab : a = b
    · subst hab
      rw [if_pos rfl, if_pos rfl]
      exact strLt_asymm as bs
    · rw [if_neg hab, if_neg (Ne.symm hab)]
      simp only [decide_eq_true_eq, decide_eq_false_iff_not]
      exact fun h => lt_asymm h

theorem strLt_trans : ∀ a b c : List Char,
    strLt a b = true → strLt b c = true → strLt a c = true := by
  intro a
  induction a with
  | nil =>
    intro b c _ hbc
    cases c with
    | nil => cases b <;> simp [strLt] at hbc
    | cons z zs => simp [strLt]
  | cons x xs ih =>
    intro b c hab hbc
    cases b with
    | nil => simp [strLt] at hab
    | cons y ys =>
      cases c with
      | nil => simp [strLt] at hbc
      | cons z zs =>
        simp only [strLt] at hab hbc ⊢
        by_cases hxy : x = y
        · subst hxy
          rw [if_pos rfl] at hab
          by_cases hxz : x = z
          · subst hxz
            rw [if_pos rfl] at hbc ⊢
            exact ih ys zs hab hbc
          · rw [if_neg hxz] at hbc ⊢
            exact hbc
        · rw [if_neg hxy] at hab
          simp only [decide_eq_true_eq] at hab
          by_cases hyz : y = z
          · subst hyz
            rw [if_neg hxy]
            simp [hab]
          · rw [if_neg hyz] at hbc
            simp only [decide_eq_true_eq] at hbc
            have hxz : x < z := lt_trans hab hbc
            rw [if_neg (ne_of_lt hxz)]
            simp [hxz]

theorem strLt_connex : ∀ a b : List Char, a ≠ b → strLt a b = true ∨ strLt b a = true := by
  intro a
  induction a with
  | nil =>
    intro b hne
    cases b with
    | nil => exact absurd rfl hne
    | cons _ _ => exact Or.inl (by simp [strLt])
  | cons x xs ih =>
    intro b hne
    cases b with
    | nil => exact Or.inr (by simp [strLt])
    | cons y ys =>
      by_cases hxy : x = y
      · subst hxy
        have hys : xs ≠ ys := fun h => hne (by rw [h])
        rcases ih ys hys with h | h
        · exact Or.inl (by simpa [strLt] using h)
        · exact Or.inr (by simpa [strLt] using h)
      · rcases Ne.lt_or_lt hxy with h | h
        · refine Or.inl ?_
          simp [strLt, if_neg hxy, h]
        · refine Or.inr ?_
          simp [strLt, if_neg (Ne.symm hxy), h]

theorem compareInt_refl (x : List Char) : compareInt x x = 0 := by
  simp [compareInt]

theorem compareInt_eq0 {x y : List Char} (h : compareInt x y = 0) : x = y := by
  by_contra hne
  unfold compareInt at h
  rw [if_neg hne] at h
  split_ifs at h <;> omega

theorem compareInt_antisym (x y : List Char) : compareInt x y = -(compareInt y x) := by
  unfold compareInt
  by_cases hxy : x = y
  · subst hxy; simp
  · rw [if_neg hxy, if_neg (Ne.symm hxy)]
    rcases Nat.lt_trichotomy x.length y.length with h | h | h
    · rw [if_pos h, if_neg (by omega), if_pos h]
    · have h1 : ¬ x.length < y.length := by omega
      have h2 : ¬ y.length < x.length := by omega
      rw [if_neg h1, if_neg h2, if_neg h2, if_neg h1]
      rcases strLt_connex x y hxy with hs | hs
      · have hs' := strLt_asymm x y hs
        rw [if_pos hs, if_neg (by simp [hs'])]
      · have hs' := strLt_asymm y x hs
        rw [if_neg (by simp [hs']), if_pos hs]
        omega
    · rw [if_neg (by omega), if_pos h, if_pos h]
      omega

theorem compareInt_transLe {x y z : List Char}
    (h1 : compareInt x y ≤ 0) (h2 : compareInt y z ≤ 0) : compareInt x z ≤ 0 := by
  by_cases hxy : x = y
  · subst hxy; exact h2
  by_cases hyz : y = z
  · subst hyz; exact h1
  by_cases hxz : x = z
  · subst hxz; simp [compareInt_refl]
  unfold compareInt at h1 h2 ⊢
  rw [if_neg hxy] at h1
  rw [if_neg hyz] at h2
  rw [if_neg hxz]
  have h1' : x.length < y.length ∨ (x.length = y.length ∧ strLt x y = true) := by
    split_ifs at h1 with a b c
    · exact Or.inl a
    · omega
    · exact Or.inr ⟨by omega, c⟩
    · omega
  have h2' : y.length < z.length ∨ (y.length = z.length ∧ strLt y z = true) := by
    split_ifs at h2 with a b c
    · exact Or.inl a
    · omega
    · exact Or.inr ⟨by omega, c⟩
    · omega
  rcases h1' with h1' | ⟨e1, s1⟩ <;> rcases h2' with h2' | ⟨e2, s2⟩
  · rw [if_pos (by omega : x.length < z.length)]; omega
  · rw [if_pos (by omega : x.length < z.length)]; omega
  · rw [if_pos (by omega : x.length < z.length)]; omega
  · have s : strLt x z = true := strLt_trans x y z s1 s2
    rw [if_neg (by omega : ¬ x.length < z.length),
        if_neg (by omega : ¬ z.length < x.length), if_pos s]
    omega

theorem identCmpNe_val (dx dy : List Char) : identCmpNe dx dy = -1 ∨ identCmpNe dx dy = 1 := by
  unfold identCmpNe
  split_ifs <;> simp

theorem identCmpNe_diag (d : List Char) : identCmpNe d d = 1 := by
  unfold identCmpNe
  rw [if_neg (by simp), if_neg (fun hh => absurd hh.2 (lt_irrefl _)),
      if_neg (fun hh => absurd hh.2 (lt_irrefl _)), if_neg (by simp [strLt_irrefl])]

theorem identCmpNe_neg_elim {dx dy : List Char} (h : identCmpNe dx dy = -1) :
    (isNum dx = true ∧ isNum dy = false) ∨
    (isNum dx = true ∧ isNum dy = true ∧ dx.length < dy.length) ∨
    (isNum dx = isNum dy ∧ dx.length = dy.length ∧ strLt dx dy = true) ∨
    (isNum dx = false ∧ isNum dy = false ∧ strLt dx dy = true) := by
  unfold identCmpNe at h
  by_cases c1 : (isNum dx) ≠ (isNum dy)
  · rw [if_pos c1] at h
    cases hdx : isNum dx
    · rw [hdx] at h
      norm_num at h
    · have hdy : isNum dy = false := by
        cases hdy : isNum dy
        · rfl
        · exact absurd (hdx.trans hdy.symm) c1
      exact Or.inl ⟨rfl, hdy⟩
  · push_neg at c1
    rw [if_neg (by simp [c1])] at h
    by_cases c2 : isNum dx = true ∧ dx.length < dy.length
    · exact Or.inr (Or.inl ⟨c2.1, c1.symm.trans c2.1, c2.2⟩)
    · rw [if_neg c2] at h
      by_cases c3 : isNum dx = true ∧ dy.length < dx.length
      · rw [if_pos c3] at h
        norm_num at h
      · rw [if_neg c3] at h
        by_cases c4 : strLt dx dy = true
        · cases hdx : isNum dx
          · exact Or.inr (Or.inr (Or.inr ⟨rfl, c1.symm.trans hdx, c4⟩))
          · have l1 : ¬ dx.length < dy.length := fun hh => c2 ⟨hdx, hh⟩
            have l2 : ¬ dy.length < dx.length := fun hh => c3 ⟨hdx, hh⟩
            exact Or.inr (Or.inr (Or.inl ⟨hdx.symm.trans c1, by omega, c4⟩))
        · rw [if_neg c4] at h
          norm_num at h

theorem identCmpNe_neg_intro {dx dz : List Char}
    (h : (isNum dx = true ∧ isNum dz = false) ∨
         (isNum dx = true ∧ isNum dz = true ∧ dx.length < dz.length) ∨
         (isNum dx = isNum dz ∧ dx.length = dz.length ∧ strLt dx dz = true) ∨
         (isNum dx = false ∧ isNum dz = false ∧ strLt dx dz = true)) :
    identCmpNe dx dz = -1 := by
  unfold identCmpNe
  rcases h with ⟨a, b⟩ | ⟨a, b, c⟩ | ⟨a, b, c⟩ | ⟨a, b, c⟩
  · rw [if_pos (by simp [a, b]), if_pos a]
  · rw [if_neg (by simp [a, b]), if_pos ⟨a, c⟩]
  · rw [if_neg (by simp [a]),
        if_neg (fun hh => absurd hh.2 (by omega)),
        if_neg (fun hh => absurd hh.2 (by omega)), if_pos c]
  · rw [if_neg (by simp [a, b]), if_neg (by simp [a]), if_neg (by simp [a]), if_pos c]

theorem identCmpNe_trans {dx dy dz : List Char}
    (h1 : identCmpNe dx dy = -1) (h2 : identCmpNe dy dz = -1) :
    identCmpNe dx dz = -1 := by
  have e1 := identCmpNe_neg_elim h1
  have e2 := identCmpNe_neg_elim h2
  apply identCmpNe_neg_intro
  rcases e1 with ⟨a1, b1⟩ | ⟨a1, b1, c1⟩ | ⟨a1, b1, c1⟩ | ⟨a1, b1, c1⟩ <;>
    rcases e2 with ⟨a2, b2⟩ | ⟨a2, b2, c2⟩ | ⟨a2, b2, c2⟩ | ⟨a2, b2, c2⟩
  · exact Bool.noConfusion (a2.symm.trans b1)
  · exact Bool.noConfusion (a2.symm.trans b1)
  · exact Or.inl ⟨a1, a2.symm.trans b1⟩
  · exact Or.inl ⟨a1, b2⟩
  · exact Or.inl ⟨a1, b2⟩
  · exact Or.inr (Or.inl ⟨a1, b2, by omega⟩)
  · exact Or.inr (Or.inl ⟨a1, a2.symm.trans b1, by omega⟩)
  · exact Bool.noConfusion (b1.symm.trans a2)
  · exact Or.inl ⟨a1.trans a2, b2⟩
  · exact Or.inr (Or.inl ⟨a1.trans a2, b2, by omega⟩)
  · exact Or.inr (Or.inr (Or.inl ⟨a1.trans a2, by omega, strLt_trans _ _ _ c1 c2⟩))
  · exact Or.inr (Or.inr (Or.inr ⟨a1.trans a2, b2, strLt_trans _ _ _ c1 c2⟩))
  · exact Bool.noConfusion (b1.symm.trans a2)
  · exact Bool.noConfusion (b1.symm.trans a2)
  · exact Or.inr (Or.inr (Or.inr ⟨a1, a2.symm.trans b1, strLt_trans _ _ _ c1 c2⟩))
  · exact Or.inr (Or.inr (Or.inr ⟨a1, b2, strLt_trans _ _ _ c1 c2⟩))

theorem identCmpNe_connex {dx dy : List Char} (h : dx ≠ dy) :
    identCmpNe dx dy = -1 ∨ identCmpNe dy dx = -1 := by
  cases hdx : isNum dx <;> cases hdy : isNum dy
  · rcases strLt_connex dx dy h with hs | hs
    · exact Or.inl (identCmpNe_neg_intro (Or.inr (Or.inr (Or.inr ⟨hdx, hdy, hs⟩))))
    · exact Or.inr (identCmpNe_neg_intro (Or.inr (Or.inr (Or.inr ⟨hdy, hdx, hs⟩))))
  · exact Or.inr (identCmpNe_neg_intro (Or.inl ⟨hdy, hdx⟩))
  · exact Or.inl (identCmpNe_neg_intro (Or.inl ⟨hdx, hdy⟩))
  · rcases Nat.lt_trichotomy dx.length dy.length with hl | hl | hl
    · exact Or.inl (identCmpNe_neg_intro (Or.inr (Or.inl ⟨hdx, hdy, hl⟩)))
    · rcases strLt_connex dx dy h with hs | hs
      · exact Or.inl (identCmpNe_neg_intro
          (Or.inr (Or.inr (Or.inl ⟨hdx.trans hdy.symm, hl, hs⟩))))
      · exact Or.inr (identCmpNe_neg_intro
          (Or.inr (Or.inr (Or.inl ⟨hdy.trans hdx.symm, hl.symm, hs⟩))))
    · exact Or.inr (identCmpNe_neg_intro (Or.inr (Or.inl ⟨hdy, hdx, hl⟩)))

theorem identCmpNe_antisym {dx dy : List Char} (h : dx ≠ dy) :
    identCmpNe dx dy = -(identCmpNe dy dx) := by
  rcases identCmpNe_connex h with hc | hc
  · rcases identCmpNe_val dy dx with h2 | h2
    · exfalso
      have := identCmpNe_trans hc h2
      have hd := identCmpNe_diag dx
      omega
    · omega
  · rcases identCmpNe_val dx dy with h2 | h2
    · exfalso
      have := identCmpNe_trans h2 hc
      have hd := identCmpNe_diag dx
      omega
    · omega

theorem identListCmp_val : ∀ xs ys : List (List Char),
    identListCmp xs ys = -1 ∨ identListCmp xs ys = 1
  | [], _ => Or.inl rfl
  | _ :: _, [] => Or.inr rfl
  | dx :: xs, dy :: ys => by
    by_cases h : dx = dy
    · simpa [identListCmp, h] using identListCmp_val xs ys
    · simpa [identListCmp, h] using identCmpNe_val dx dy

theorem identListCmp_antisym : ∀ xs ys : List (List Char), xs ≠ ys →
    identListCmp xs ys = -(identListCmp ys xs)
  | [], [] => fun h => absurd rfl h
  | [], _ :: _ => fun _ => by simp [identListCmp]
  | _ :: _, [] => fun _ => by simp [identListCmp]
  | dx :: xs, dy :: ys => fun h => by
    by_cases hd : dx = dy
    · subst hd
      have hxs : xs ≠ ys := fun he => h (by rw [he])
      simpa [identListCmp] using identListCmp_antisym xs ys hxs
    · simp only [identListCmp, if_neg hd, if_neg (Ne.symm hd)]
      exact identCmpNe_antisym hd

theorem identListCmp_trans : ∀ xs ys zs : List (List Char),
    identListCmp xs ys = -1 → identListCmp ys zs = -1 → identListCmp xs zs = -1
  | [], _, _ => fun _ _ => rfl
  | _ :: _, [], _ => fun h _ => by simp [identListCmp] at h
  | _ :: _, _ :: _, [] => fun _ h => by simp [identListCmp] at h
  | dx :: xs, dy :: ys, dz :: zs => fun h1 h2 => by
    simp only [identListCmp] at h1 h2 ⊢
    by_cases hxy : dx = dy <;> by_cases hyz : dy = dz
    · rw [if_pos hxy] at h1
      rw [if_pos hyz] at h2
      rw [if_pos (hxy.trans hyz)]
      exact identListCmp_trans xs ys zs h1 h2
    · rw [if_pos hxy] at h1
      rw [if_neg hyz] at h2
      have hxz : dx ≠ dz := by rw [hxy]; exact hyz
      rw [if_neg hxz, hxy]
      exact h2
    · rw [if_neg hxy] at h1
      have hxz : dx ≠ dz := by rw [← hyz]; exact hxy
      rw [if_neg hxz, ← hyz]
      exact h1
    · rw [if_neg hxy] at h1
      rw [if_neg hyz] at h2
      by_cases hxz : dx = dz
      · exfalso
        have ha := identCmpNe_antisym hxy
        rw [← hxz] at h2
        rw [h1, h2] at ha
        omega
      · rw [if_neg hxz]
        exact identCmpNe_trans h1 h2

theorem splitDotsAux_ne_nil (acc l : List Char) : splitDotsAux acc l ≠ [] := by
  induction l generalizing acc with
  | nil => simp [splitDotsAux]
  | cons c rest ih =>
    by_cases h : c = '.'
    · simp [splitDotsAux, h]
    · simpa [splitDotsAux, h] using ih (c :: acc)

theorem joinDots_cons₂ (a b : List Char) (l : List (List Char)) :
    joinDots (a :: b :: l) = a ++ '.' :: joinDots (b :: l) := rfl

theorem joinDots_splitDotsAux (l : List Char) : ∀ acc : List Char,
    joinDots (splitDotsAux acc l) = acc.reverse ++ l := by
  induction l with
  | nil => intro acc; simp [splitDotsAux, joinDots]
  | cons c rest ih =>
    intro acc
    by_cases h : c = '.'
    · subst h
      rw [splitDotsAux, if_pos rfl]
      obtain ⟨p, ps, hps⟩ : ∃ p ps, splitDotsAux ([] : List Char) rest = p :: ps := by
        cases hsp : splitDotsAux ([] : List Char) rest with
        | nil => exact absurd hsp (splitDotsAux_ne_nil _ _)
        | cons p ps => exact ⟨p, ps, rfl⟩
      have ihr := ih ([] : List Char)
      rw [hps] at ihr ⊢
      rw [joinDots_cons₂]
      simp only [List.reverse_nil, List.nil_append] at ihr
      rw [ihr]
    · rw [splitDotsAux, if_neg h, ih (c :: acc)]
      simp

theorem splitDots_injective {a b : List Char} (h : splitDots a = splitDots b) : a = b := by
  have ha := joinDots_splitDotsAux a ([] : List Char)
  have hb := joinDots_splitDotsAux b ([] : List Char)
  simp only [List.reverse_nil, List.nil_append] at ha hb
  unfold splitDots at h
  rw [← ha, ← hb, h]

theorem comparePre_refl (x : List Char) : comparePre x x = 0 := by
  simp [comparePre]

theorem comparePre_eq0 {x y : List Char} (h : comparePre x y = 0) : x = y := by
  by_contra hne
  unfold comparePre at h
  rw [if_neg hne] at h
  split_ifs at h
  all_goals first
    | omega
    | (rcases identListCmp_val (splitDots (x.drop 1)) (splitDots (y.drop 1)) with hv | hv <;> omega)

theorem comparePre_val (x y : List Char) :
    comparePre x y = -1 ∨ comparePre x y = 0 ∨ comparePre x y = 1 := by
  unfold comparePre
  split_ifs
  · exact Or.inr (Or.inl rfl)
  · exact Or.inr (Or.inr rfl)
  · exact Or.inl rfl
  · rcases identListCmp_val (splitDots (x.drop 1)) (splitDots (y.drop 1)) with hv | hv
    · exact Or.inl hv
    · exact Or.inr (Or.inr hv)

theorem comparePre_antisym {x y : List Char} (hx : PreWF x) (hy : PreWF y) :
    comparePre x y = -(comparePre y x) := by
  by_cases hxy : x = y
  · subst hxy; simp [comparePre_refl]
  unfold comparePre
  rw [if_neg hxy, if_neg (Ne.symm hxy)]
  by_cases hxe : x = []
  · rw [if_pos hxe, if_neg (fun he => hxy (hxe.trans he.symm)), if_pos hxe]
    omega
  · rw [if_neg hxe]
    by_cases hye : y = []
    · rw [if_pos hye, if_pos hye]
    · rw [if_neg hye, if_neg hye, if_neg hxe]
      rcases hx with rfl | ⟨bx, rfl⟩
      · exact absurd rfl hxe
      rcases hy with rfl | ⟨bb, rfl⟩
      · exact absurd rfl hye
      have hb : bx ≠ bb := fun hh => hxy (by rw [hh])
      have hsd : splitDots bx ≠ splitDots bb := fun hh => hb (splitDots_injective hh)
      show identListCmp (splitDots bx) (splitDots bb) =
        -identListCmp (splitDots bb) (splitDots bx)
      exact identListCmp_antisym _ _ hsd

theorem comparePre_transLe {x y z : List Char} (_hx : PreWF x) (hy : PreWF y) (hz : PreWF z)
    (h1 : comparePre x y ≤ 0) (h2 : comparePre y z ≤ 0) : comparePre x z ≤ 0 := by
  by_cases hxy : x = y
  · subst hxy; exact h2
  by_cases hyz : y = z
  · subst hyz; exact h1
  by_cases hxz : x = z
  · subst hxz; simp [comparePre_refl]
  have h1' : comparePre x y = -1 := by
    rcases comparePre_val x y with hv | hv | hv
    · exact hv
    · exact absurd (comparePre_eq0 hv) hxy
    · omega
  have h2' : comparePre y z = -1 := by
    rcases comparePre_val y z with hv | hv | hv
    · exact hv
    · exact absurd (comparePre_eq0 hv) hyz
    · omega
  unfold comparePre at h1' h2' ⊢
  rw [if_neg hxy] at h1'
  rw [if_neg hyz] at h2'
  rw [if_neg hxz]
  by_cases hxe : x = []
  · rw [if_pos hxe] at h1'; omega
  rw [if_neg hxe] at h1'
  rw [if_neg hxe]
  by_cases hye : y = []
  · rw [if_pos hye] at h2'; omega
  rw [if_neg hye] at h1'
  rw [if_neg hye] at h2'
  by_cases hze : z = []
  · rw [if_pos hze]; omega
  rw [if_neg hze] at h2'
  rw [if_neg hze]
  rw [identListCmp_trans _ _ _ h1' h2']
  omega

theorem parsePre_shape {v t r : List Char} (h : parsePre v = some (t, r)) :
    ∃ b, t = '-' :: b := by
  unfold parsePre at h
  split at h
  · dsimp only at h
    split_ifs at h
    rw [Option.some.injEq, Prod.mk.injEq] at h
    exact ⟨_, h.1.symm⟩
  · exact absurd h (by simp)

theorem parse_preWF {v : List Char} {p : Parsed} (h : parse v = some p) :
    PreWF p.prerelease := by
  unfold parse at h
  split at h
  · split at h
    · exact absurd h (by simp)
    · split at h
      · rw [Option.some.injEq] at h
        subst h
        exact Or.inl rfl
      · split at h
        · exact absurd h (by simp)
        · split at h
          · rw [Option.some.injEq] at h
            subst h
            exact Or.inl rfl
          · split at h
            · exact absurd h (by simp)
            · split at h
              · exact absurd h (by simp)
              · rename_i pre v7 hpre
                split at h
                · exact absurd h (by simp)
                · split_ifs at h
                  rw [Option.some.injEq] at h
                  subst h
                  split at hpre
                  · exact (parsePre_shape hpre).elim fun b hb => Or.inr ⟨b, hb⟩
                  · rw [Option.some.injEq, Prod.mk.injEq] at hpre
                    exact Or.inl hpre.1.symm
          · exact absurd h (by simp)
      · exact absurd h (by simp)
  · exact absurd h (by simp)

end Semver

theorem IsCmp.ltLe {α : Type _} {f : α → α → Int} (hf : IsCmp f) {a b c : α}
    (h1 : f a b < 0) (h2 : f b c ≤ 0) : f a c < 0 := by
  by_contra hcon
  push_neg at hcon
  have hca : f c a ≤ 0 := by
    have := hf.antisym a c
    omega
  have hba := hf.leTrans b c a h2 hca
  have := hf.antisym a b
  omega

theorem IsCmp.leLt {α : Type _} {f : α → α → Int} (hf : IsCmp f) {a b c : α}
    (h1 : f a b ≤ 0) (h2 : f b c < 0) : f a c < 0 := by
  by_contra hcon
  push_neg at hcon
  have hca : f c a ≤ 0 := by
    have := hf.antisym a c
    omega
  have hcb := hf.leTrans c a b hca h1
  have := hf.antisym b c
  omega

theorem IsCmp.lex {α : Type _} {f g : α → α → Int} (hf : IsCmp f) (hg : IsCmp g) :
    IsCmp (fun a b => if f a b ≠ 0 then f a b else g a b) := by
  constructor
  · intro a
    simp [hf.refl, hg.refl]
  · intro a b
    have hfa := hf.antisym a b
    by_cases hz : f a b = 0
    · have hz' : f b a = 0 := by omega
      rw [if_neg (by simp [hz]), if_neg (by simp [hz'])]
      exact hg.antisym a b
    · have hz' : f b a ≠ 0 := by omega
      rw [if_pos hz, if_pos hz']
      exact hfa
  · intro a b c h1 h2
    by_cases hab : f a b = 0 <;> by_cases hbc : f b c = 0
    · have hac := hf.zeroTrans a b c hab hbc
      rw [if_neg (by simp [hab])] at h1
      rw [if_neg (by simp [hbc])] at h2
      rw [if_neg (by simp [hac])]
      exact hg.leTrans a b c h1 h2
    · have h2' : f b c < 0 := by rw [if_pos hbc] at h2; omega
      have hac : f a c < 0 := hf.leLt (le_of_eq hab) h2'
      rw [if_pos (by omega : f a c ≠ 0)]
      omega
    · have h1' : f a b < 0 := by rw [if_pos hab] at h1; omega
      have hac : f a c < 0 := hf.ltLe h1' (le_of_eq hbc)
      rw [if_pos (by omega : f a c ≠ 0)]
      omega
    · have h1' : f a b < 0 := by rw [if_pos hab] at h1; omega
      have h2' : f b c < 0 := by rw [if_pos hbc] at h2; omega
      have hac : f a c < 0 := hf.ltLe h1' (le_of_lt h2')
      rw [if_pos (by omega : f a c ≠ 0)]
      omega
  · intro a b c h1 h2
    by_cases hab : f a b = 0
    · by_cases hbc : f b c = 0
      · have hac := hf.zeroTrans a b c hab hbc
        rw [if_neg (by simp [hab])] at h1
        rw [if_neg (by simp [hbc])] at h2
        rw [if_neg (by simp [hac])]
        exact hg.zeroTrans a b c h1 h2
      · rw [if_pos hbc] at h2
        exact absurd h2 hbc
    · rw [if_pos hab] at h1
      exact absurd h1 hab

namespace Semver

theorem isCmp_compareInt : IsCmp compareInt := by
  refine ⟨compareInt_refl, compareInt_antisym, ?_, ?_⟩
  · intro a b c h1 h2
    exact compareInt_transLe h1 h2
  · intro a b c h1 h2
    rw [compareInt_eq0 h1]
    exact h2

theorem isCmp_majorW : IsCmp (fun p q : ParsedW => compareInt p.val.major q.val.major) := by
  refine ⟨fun a => compareInt_refl _, fun a b => compareInt_antisym _ _, ?_, ?_⟩
  · intro a b c h1 h2
    exact compareInt_transLe h1 h2
  · intro a b c h1 h2
    rw [compareInt_eq0 h1]
    exact h2

theorem isCmp_minorW : IsCmp (fun p q : ParsedW => compareInt p.val.minor q.val.minor) := by
  refine ⟨fun a => compareInt_refl _, fun a b => compareInt_antisym _ _, ?_, ?_⟩
  · intro a b c h1 h2
    exact compareInt_transLe h1 h2
  · intro a b c h1 h2
    rw [compareInt_eq0 h1]
    exact h2

theorem isCmp_patchW : IsCmp (fun p q : ParsedW => compareInt p.val.patch q.val.patch) := by
  refine ⟨fun a => compareInt_refl _, fun a b => compareInt_antisym _ _, ?_, ?_⟩
  · intro a b c h1 h2
    exact compareInt_transLe h1 h2
  · intro a b c h1 h2
    rw [compareInt_eq0 h1]
    exact h2

theorem isCmp_preW : IsCmp (fun p q : ParsedW => comparePre p.val.prerelease q.val.prerelease) := by
  refine ⟨fun a => comparePre_refl _, fun a b => comparePre_antisym a.property b.property, ?_, ?_⟩
  · intro a b c h1 h2
    exact comparePre_transLe a.property b.property c.property h1 h2
  · intro a b c h1 h2
    rw [comparePre_eq0 h1]
    exact h2

theorem isCmp_cmpParsedW : IsCmp cmpParsedW :=
  isCmp_majorW.lex (isCmp_minorW.lex (isCmp_patchW.lex isCmp_preW))

theorem cmpParsed_refl (p : Parsed) : cmpParsed p p = 0 := by
  unfold cmpParsed
  simp [compareInt_refl, comparePre_refl]

theorem compare_refl (v : List Char) : Semver.compare v v = 0 := by
  unfold Semver.compare
  cases parse v
  · rfl
  · rename_i p
    exact cmpParsed_refl p

theorem compare_antisym (v w : List Char) : Semver.compare v w = -(Semver.compare w v) := by
  unfold Semver.compare
  cases hv : parse v <;> cases hw : parse w
  · rfl
  · rfl
  · show (1 : Int) = -(-1)
    norm_num
  · rename_i p q
    exact isCmp_cmpParsedW.antisym ⟨p, parse_preWF hv⟩ ⟨q, parse_preWF hw⟩

theorem compare_transLe {u v w : List Char}
    (h1 : Semver.compare u v ≤ 0) (h2 : Semver.compare v w ≤ 0) : Semver.compare u w ≤ 0 := by
  unfold Semver.compare at h1 h2 ⊢
  cases hu : parse u <;> cases hv : parse v <;> cases hw : parse w <;> simp_all
  rename_i pu pv pw
  exact isCmp_cmpParsedW.leTrans ⟨pu, parse_preWF hu⟩ ⟨pv, parse_preWF hv⟩
    ⟨pw, parse_preWF hw⟩ h1 h2

theorem compare_zeroTrans {u v w : List Char}
    (h1 : Semver.compare u v = 0) (h2 : Semver.compare v w = 0) : Semver.compare u w = 0 := by
  unfold Semver.compare at h1 h2 ⊢
  cases hu : parse u <;> cases hv : parse v <;> cases hw : parse w <;> simp_all
  rename_i pu pv pw
  exact isCmp_cmpParsedW.zeroTrans ⟨pu, parse_preWF hu⟩ ⟨pv, parse_preWF hv⟩
    ⟨pw, parse_preWF hw⟩ h1 h2

end Semver

namespace Whatsnew

theorem isCmp_cmp : IsCmp cmp := by
  refine ⟨fun a => Semver.compare_refl _, fun a b => Semver.compare_antisym _ _, ?_, ?_⟩
  · intro a b c h1 h2
    exact Semver.compare_transLe h1 h2
  · intro a b c h1 h2
    exact Semver.compare_zeroTrans h1 h2

theorem eligible_iff (rel : Release) :
    eligible rel = true ↔ (rel.draft = false ∧ isValid rel.tagName = true ∧
      rel.prerelease = false ∧ isPrerelease rel.tagName = false) := by
  unfold eligible
  cases hd : rel.draft <;> cases hp : rel.prerelease <;>
    cases hv : isValid rel.tagName <;> cases hip : isPrerelease rel.tagName <;> simp

theorem selectStep_of_elig {rel : Release} (h : eligible rel = true) (acc : List Char) :
    selectStep acc rel = if cmp acc rel.tagName < 0 then rel.tagName else acc := by
  obtain ⟨h1, h2, h3, h4⟩ := (eligible_iff rel).mp h
  unfold selectStep
  simp [h1, h2, h3, h4]

theorem selectStep_of_inelig {rel : Release} (h : eligible rel = false) (acc : List Char) :
    selectStep acc rel = acc := by
  unfold selectStep
  by_cases hd : rel.draft = true
  · simp [hd]
  · rw [if_neg hd]
    by_cases hv : isValid rel.tagName = true
    · rw [if_neg (by simp [hv])]
      by_cases hp : (rel.prerelease = true) ∨ (isPrerelease rel.tagName = true)
      · rw [if_pos hp]
      · exfalso
        push_neg at hp
        have : eligible rel = true := (eligible_iff rel).mpr
          ⟨Bool.not_eq_true _ ▸ hd, hv,
           Bool.not_eq_true _ ▸ hp.1, Bool.not_eq_true _ ▸ hp.2⟩
        rw [this] at h
        cases h
    · rw [if_pos (by simpa using hv)]

theorem cmp_nil_lt {t : List Char} (h : isValid t = true) : cmp [] t < 0 := by
  obtain ⟨p, hp⟩ : ∃ p, Semver.parse (maybeV t) = some p := by
    unfold isValid Semver.isValidSem at h
    exact Option.isSome_iff_exists.mp h
  show Semver.compare (maybeV []) (maybeV t) < 0
  have hmv : maybeV ([] : List Char) = [] := rfl
  rw [hmv]
  unfold Semver.compare
  have hnil : Semver.parse ([] : List Char) = none := rfl
  rw [hnil, hp]
  norm_num

theorem foldl_select_prov : ∀ (rels : List Release) (acc : List Char),
    List.foldl selectStep acc rels = acc ∨
      ∃ r ∈ rels, eligible r = true ∧ List.foldl selectStep acc rels = r.tagName := by
  intro rels
  induction rels with
  | nil => intro _; exact Or.inl rfl
  | cons rel rest ih =>
    intro acc
    rw [List.foldl_cons]
    cases he : eligible rel
    · rw [selectStep_of_inelig he]
      rcases ih acc with h | ⟨r, hr, he', hv⟩
      · exact Or.inl h
      · exact Or.inr ⟨r, List.mem_cons_of_mem _ hr, he', hv⟩
    · rw [selectStep_of_elig he]
      by_cases hc : cmp acc rel.tagName < 0
      · rw [if_pos hc]
        rcases ih rel.tagName with h | ⟨r, hr, he', hv⟩
        · exact Or.inr ⟨rel, List.mem_cons_self _ _, he, h⟩
        · exact Or.inr ⟨r, List.mem_cons_of_mem _ hr, he', hv⟩
      · rw [if_neg hc]
        rcases ih acc with h | ⟨r, hr, he', hv⟩
        · exact Or.inl h
        · exact Or.inr ⟨r, List.mem_cons_of_mem _ hr, he', hv⟩

theorem foldl_select_ge : ∀ (rels : List Release) (acc : List Char),
    cmp acc (List.foldl selectStep acc rels) ≤ 0 ∧
      ∀ r ∈ rels, eligible r = true → 0 ≤ cmp (List.foldl selectStep acc rels) r.tagName := by
  intro rels
  induction rels with
  | nil =>
    intro acc
    refine ⟨le_of_eq (isCmp_cmp.refl acc), ?_⟩
    intro r hr
    cases hr
  | cons rel rest ih =>
    intro acc
    rw [List.foldl_cons]
    cases he : eligible rel
    · rw [selectStep_of_inelig he]
      obtain ⟨hle, hall⟩ := ih acc
      refine ⟨hle, ?_⟩
      intro r hr hel
      rcases List.mem_cons.mp hr with rfl | hr'
      · rw [hel] at he; cases he
      · exact hall r hr' hel
    · rw [selectStep_of_elig he]
      by_cases hc : cmp acc rel.tagName < 0
      · rw [if_pos hc]
        obtain ⟨hle, hall⟩ := ih rel.tagName
        refine ⟨le_of_lt (isCmp_cmp.ltLe hc hle), ?_⟩
        intro r hr hel
        rcases List.mem_cons.mp hr with rfl | hr'
        · have := isCmp_cmp.antisym r.tagName (List.foldl selectStep r.tagName rest)
          omega
        · exact hall r hr' hel
      · rw [if_neg hc]
        push_neg at hc
        obtain ⟨hle, hall⟩ := ih acc
        refine ⟨hle, ?_⟩
        intro r hr hel
        rcases List.mem_cons.mp hr with rfl | hr'
        · have h1 : cmp r.tagName acc ≤ 0 := by
            have := isCmp_cmp.antisym acc r.tagName
            omega
          have h2 := isCmp_cmp.leTrans _ _ _ h1 hle
          have := isCmp_cmp.antisym (List.foldl selectStep acc rest) r.tagName
          omega
        · exact hall r hr' hel

theorem foldl_select_firstwin : ∀ (rels : List Release) (acc : List Char),
    List.foldl selectStep acc rels ≠ acc →
    ∃ before r after, rels = before ++ r :: after ∧ eligible r = true ∧
      List.foldl selectStep acc rels = r.tagName ∧
      cmp acc r.tagName < 0 ∧
      ∀ r' ∈ before, eligible r' = true → cmp r'.tagName (List.foldl selectStep acc rels) < 0 := by
  intro rels
  induction rels with
  | nil => intro _ h; exact absurd rfl h
  | cons rel rest ih =>
    intro acc hne
    rw [List.foldl_cons] at hne ⊢
    cases he : eligible rel
    · rw [selectStep_of_inelig he] at hne ⊢
      obtain ⟨bf, r, af, hsplit, helig, hres, hlt, hbf⟩ := ih acc hne
      refine ⟨rel :: bf, r, af, by rw [hsplit]; rfl, helig, hres, hlt, ?_⟩
      intro r' hr' hel'
      rcases List.mem_cons.mp hr' with rfl | hr''
      · rw [hel'] at he; cases he
      · exact hbf r' hr'' hel'
    · rw [selectStep_of_elig he] at hne ⊢
      by_cases hc : cmp acc rel.tagName < 0
      · rw [if_pos hc] at hne ⊢
        by_cases hres : List.foldl selectStep rel.tagName rest = rel.tagName
        · refine ⟨[], rel, rest, rfl, he, hres, hc, ?_⟩
          intro r' hr'
          cases hr'
        · obtain ⟨bf, r, af, hsplit, helig, hres', hlt, hbf⟩ := ih rel.tagName hres
          refine ⟨rel :: bf, r, af, by rw [hsplit]; rfl, helig, hres',
            isCmp_cmp.ltLe hc (le_of_lt hlt), ?_⟩
          intro r' hr' hel'
          rcases List.mem_cons.mp hr' with rfl | hr''
          · rw [hres']
            exact hlt
          · exact hbf r' hr'' hel'
      · rw [if_neg hc] at hne ⊢
        push_neg at hc
        obtain ⟨bf, r, af, hsplit, helig, hres, hlt, hbf⟩ := ih acc hne
        refine ⟨rel :: bf, r, af, by rw [hsplit]; rfl, helig, hres, hlt, ?_⟩
        intro r' hr' hel'
        rcases List.mem_cons.mp hr' with rfl | hr''
        · rw [hres]
          have h1 : cmp r'.tagName acc ≤ 0 := by
            have := isCmp_cmp.antisym acc r'.tagName
            omega
          exact isCmp_cmp.leLt h1 hlt
        · exact hbf r' hr'' hel'

theorem wraps_all (e : GoError) : e.wrapsMisconfigured = true := rfl

theorem resolve_ok_facts {o o' : GoOptions} (h : o.resolve = .ok o') :
    o'.version = o.version ∧ o'.slug = o.slug ∧ o'.cache = o.cache ∧
      o'.cacher.isSome = true ∧ o'.releaser.isSome = true := by
  unfold GoOptions.resolve at h
  by_cases c1 : o.cacher.isSome = true ∧ o.cache ≠ []
  · rw [if_pos c1] at h
    exact absurd h (by simp)
  rw [if_neg c1] at h
  by_cases c2 : o.releaser.isSome = true ∧ o.slug ≠ []
  · rw [if_pos c2] at h
    exact absurd h (by simp)
  rw [if_neg c2] at h
  dsimp only at h
  rw [Except.ok.injEq] at h
  subst h
  cases hc : o.cacher <;> cases hr : o.releaser <;>
    by_cases hf : o.frequency = 0 <;> by_cases ht : o.timeout = 0 <;>
    simp [hc, hr, hf, ht]

theorem resolve_again_errors {o o' : GoOptions} (h : o.resolve = .ok o')
    (hs : o.slug ≠ [] ∨ o.cache ≠ []) : ∃ e, o'.resolve = .error e := by
  obtain ⟨_, hslug, hcache, hc, hr⟩ := resolve_ok_facts h
  unfold GoOptions.resolve
  by_cases h1 : o'.cacher.isSome = true ∧ o'.cache ≠ []
  · rw [if_pos h1]
    exact ⟨_, rfl⟩
  · rw [if_neg h1]
    rcases hs with hs | hs
    · rw [if_pos ⟨hr, by rw [hslug]; exact hs⟩]
      exact ⟨_, rfl⟩
    · exact absurd ⟨hc, by rw [hcache]; exact hs⟩ h1

theorem doWork_err {o : GoOptions} {e : GoError} (h : o.resolve = .error e) (env : RunEnv) :
    doWork o env = errOutput e := by
  unfold doWork
  rw [h]
  rfl

theorem doWork_fresh {o o' : GoOptions} (h : o.resolve = .ok o') (env : RunEnv)
    (hf : env.now - (readInfo env.cacheGet).checkTime < o'.frequency) :
    doWork o env = ⟨finalize o'.version (readInfo env.cacheGet).version, none,
      (readInfo env.cacheGet).version, true, false, []⟩ := by
  unfold doWork
  rw [h]
  dsimp only
  rw [if_pos hf]

theorem doWork_fetch_error {o o' : GoOptions} (h : o.resolve = .ok o') (env : RunEnv)
    (hf : ¬ (env.now - (readInfo env.cacheGet).checkTime < o'.frequency))
    (he : env.fetch (readInfo env.cacheGet).etag = .error ()) :
    doWork o env = ⟨finalize o'.version (readInfo env.cacheGet).version, none,
      (readInfo env.cacheGet).version, true, true, []⟩ := by
  unfold doWork
  rw [h]
  dsimp only
  rw [if_neg hf, he]

theorem doWork_unchanged {o o' : GoOptions} {etag : List Char}
    (h : o.resolve = .ok o') (env : RunEnv)
    (hf : ¬ (env.now - (readInfo env.cacheGet).checkTime < o'.frequency))
    (he : env.fetch (readInfo env.cacheGet).etag = .ok ([], etag)) :
    doWork o env = ⟨finalize o'.version (readInfo env.cacheGet).version, none,
      (readInfo env.cacheGet).version, true, true,
      [{ checkTime := env.now, version := (readInfo env.cacheGet).version, etag := etag }]⟩ := by
  unfold doWork
  rw [h]
  dsimp only
  rw [if_neg hf, he]
  rfl

theorem doWork_nonempty {o o' : GoOptions} {rels : List Release} {etag : List Char}
    (h : o.resolve = .ok o') (env : RunEnv)
    (hf : ¬ (env.now - (readInfo env.cacheGet).checkTime < o'.frequency))
    (he : env.fetch (readInfo env.cacheGet).etag = .ok (rels, etag))
    (hne : rels ≠ []) :
    doWork o env =
      ⟨finalize o'.version
          (if cmp o'.version (selectNewVer rels) < 1 then selectNewVer rels else o'.version),
        none,
        (if cmp o'.version (selectNewVer rels) < 1 then selectNewVer rels else o'.version),
        true, true,
        [{ checkTime := env.now, version := selectNewVer rels, etag := etag }]⟩ := by
  unfold doWork
  rw [h]
  dsimp only
  rw [if_neg hf, he]
  dsimp only
  rw [if_neg hne]

theorem doWork_v_candidate {o o' : GoOptions} (h : o.resolve = .ok o') (env : RunEnv) :
    (doWork o env).v = finalize o.version (doWork o env).candidate := by
  have hv := (resolve_ok_facts h).1
  by_cases hf : env.now - (readInfo env.cacheGet).checkTime < o'.frequency
  · rw [doWork_fresh h env hf, hv]
  · cases hfe : env.fetch (readInfo env.cacheGet).etag with
    | error u =>
      cases u
      rw [doWork_fetch_error h env hf hfe, hv]
    | ok pr =>
      obtain ⟨rels, etag⟩ := pr
      by_cases hne : rels = []
      · subst hne
        rw [doWork_unchanged h env hf hfe, hv]
      · rw [doWork_nonempty h env hf hfe hne, hv]

/-! ## Claim theorems -/

/-- C1 (counterexample): the claim says the candidate answer that proceeds
to Finalize is whichever of the selected version and the cache's prior
last-known version compares higher, ties keeping the cached value
(`specCandidateAnswer`). On a stale run with current version v1.0.0,
cached last-known v2.0.0 and sole remote candidate v1.5.0, the code's
candidate is v1.5.0 while the claim's rule yields v2.0.0: `doWork`
compares the selected version against the caller's current version, not
against the cached prior version. -/
theorem claim_C1_counterexample :
    (doWork exOptions exEnv).candidate = "v1.5.0".data ∧
    specCandidateAnswer (selectNewVer [exRel]) exInfo.version = "v2.0.0".data ∧
    (doWork exOptions exEnv).candidate ≠
      specCandidateAnswer (selectNewVer [exRel]) exInfo.version := by
  refine ⟨by decide, by decide, by decide⟩

/-- C1 (amended): in the stale path, on a successful fetch with a
non-empty candidate list, the candidate answer that proceeds to Finalize
is whichever of the selected version and the caller's CURRENT version
compares higher under `cmp`, and on a comparator tie the newly selected
version is taken; the cache's prior last-known version plays no role in
this choice. -/
theorem claim_C1_amended (o o' : GoOptions) (env : RunEnv)
    (rels : List Release) (etag : List Char)
    (h : o.resolve = .ok o')
    (hf : ¬ (env.now - (readInfo env.cacheGet).checkTime < o'.frequency))
    (he : env.fetch (readInfo env.cacheGet).etag = .ok (rels, etag))
    (hne : rels ≠ []) :
    (doWork o env).candidate =
      (if 0 ≤ cmp (selectNewVer rels) o.version then selectNewVer rels else o.version) := by
  rw [doWork_nonempty h env hf he hne]
  have hv := (resolve_ok_facts h).1
  dsimp only
  rw [hv]
  have ha := isCmp_cmp.antisym o.version (selectNewVer rels)
  by_cases hc : cmp o.version (selectNewVer rels) < 1
  · rw [if_pos hc, if_pos (by omega)]
  · rw [if_neg hc, if_neg (by omega)]

/-- C1 (witness): the amended statement at the concrete counterexample
run, where the selected v1.5.0 wins over the current v1.0.0. -/
theorem claim_C1_amended_witness :
    (doWork exOptions exEnv).candidate =
      (if 0 ≤ cmp (selectNewVer [exRel]) exOptions.version then selectNewVer [exRel]
       else exOptions.version) :=
  claim_C1_amended exOptions exResolved exEnv [exRel] "E2".data rfl
    (by decide) rfl (by decide)

/-- C2: the selection loop iterates the candidates in the given order;
the result is empty exactly when no candidate is eligible (eligibility
excludes drafts, invalid tags and prereleases by flag or by tag);
otherwise the result is the tag of an eligible candidate that compares
at least as high as every eligible candidate, and every eligible
candidate strictly before the winner compares strictly lower, so among
comparator ties the first-seen candidate wins. -/
theorem claim_C2_selection (rels : List Release) :
    ((selectNewVer rels = []) ↔ (∀ r ∈ rels, eligible r = false)) ∧
    (selectNewVer rels ≠ [] →
      ∃ before r after, rels = before ++ r :: after ∧ eligible r = true ∧
        selectNewVer rels = r.tagName ∧
        (∀ r' ∈ before, eligible r' = true → cmp r'.tagName (selectNewVer rels) < 0) ∧
        (∀ r' ∈ rels, eligible r' = true → 0 ≤ cmp (selectNewVer rels) r'.tagName)) := by
  constructor
  · constructor
    · intro hnil r hr
      by_contra he
      rw [Bool.not_eq_false] at he
      have hge := (foldl_select_ge rels []).2 r hr he
      have hval := (eligible_iff r).mp he
      have hlt := cmp_nil_lt hval.2.1
      have hsel : List.foldl selectStep [] rels = selectNewVer rels := rfl
      rw [hsel, hnil] at hge
      omega
    · intro hall
      rcases foldl_select_prov rels [] with h | ⟨r, hr, he, _⟩
      · exact h
      · rw [hall r hr] at he
        cases he
  · intro hne
    have hne' : List.foldl selectStep [] rels ≠ [] := hne
    obtain ⟨bf, r, af, hsplit, helig, hres, _, hbf⟩ := foldl_select_firstwin rels [] hne'
    exact ⟨bf, r, af, hsplit, helig, hres, hbf, (foldl_select_ge rels []).2⟩

/-- C2 (witness): on a concrete three-candidate list the winner v1.1.1
satisfies the selection decomposition. -/
theorem claim_C2_selection_witness :
    ∃ before r after, exRels = before ++ r :: after ∧ eligible r = true ∧
      selectNewVer exRels = r.tagName ∧
      (∀ r' ∈ before, eligible r' = true → cmp r'.tagName (selectNewVer exRels) < 0) ∧
      (∀ r' ∈ exRels, eligible r' = true → 0 ≤ cmp (selectNewVer exRels) r'.tagName) :=
  (claim_C2_selection exRels).2 (by decide)

/-- C3: every run returns either the empty string or a version string
comparing strictly above the current version; and whenever resolution
succeeds, the returned string is empty when the candidate answer
compares at most equal to the current version, and is the candidate
answer itself (with whatever prefix it carries) when the candidate
compares strictly higher. -/
theorem claim_C3_finalize (o : GoOptions) (env : RunEnv) :
    ((doWork o env).v = [] ∨ cmp o.version (doWork o env).v < 0) ∧
    (∀ o', o.resolve = .ok o' →
      (0 ≤ cmp o.version (doWork o env).candidate → (doWork o env).v = []) ∧
      (cmp o.version (doWork o env).candidate < 0 →
        (doWork o env).v = (doWork o env).candidate)) := by
  constructor
  · cases hr : o.resolve with
    | error e =>
      rw [doWork_err hr env]
      exact Or.inl rfl
    | ok o' =>
      rw [doWork_v_candidate hr env]
      unfold finalize
      by_cases hc : 0 ≤ cmp o.version (doWork o env).candidate
      · rw [if_pos hc]
        exact Or.inl rfl
      · rw [if_neg hc]
        push_neg at hc
        exact Or.inr hc
  · intro o' hr
    rw [doWork_v_candidate hr env]
    unfold finalize
    constructor
    · intro hge
      rw [if_pos hge]
    · intro hlt
      rw [if_neg (by omega)]

/-- C3 (witness): on the concrete stale run the candidate v1.5.0 beats
the current v1.0.0, so the returned value is the candidate itself. -/
theorem claim_C3_finalize_witness :
    (doWork exOptions exEnv).v = (doWork exOptions exEnv).candidate :=
  ((claim_C3_finalize exOptions exEnv).2 exResolved rfl).2 (by decide)

/-- C4: when the release-source fetch fails, the candidate answer is the
cached last-known version (finalized against the current version by the
standard rule), no error is surfaced, and no cache write happens. -/
theorem claim_C4_fetch_error_fallback (o o' : GoOptions) (env : RunEnv)
    (h : o.resolve = .ok o')
    (hf : ¬ (env.now - (readInfo env.cacheGet).checkTime < o'.frequency))
    (he : env.fetch (readInfo env.cacheGet).etag = .error ()) :
    doWork o env = ⟨finalize o.version (readInfo env.cacheGet).version, none,
      (readInfo env.cacheGet).version, true, true, []⟩ := by
  rw [doWork_fetch_error h env hf he, (resolve_ok_facts h).1]

/-- C4 (witness): the fetch-error fallback at a concrete stale run. -/
theorem claim_C4_fetch_error_fallback_witness :
    doWork exOptions exEnvErr = ⟨finalize exOptions.version (readInfo exEnvErr.cacheGet).version,
      none, (readInfo exEnvErr.cacheGet).version, true, true, []⟩ :=
  claim_C4_fetch_error_fallback exOptions exResolved exEnvErr rfl (by decide) rfl

/-- C5: when the fetch succeeds with an empty candidate list, the
candidate answer is the cached last-known version and the cache is
rewritten exactly once with the newly sampled check time and the newly
returned revalidation token, keeping the same last-known version. -/
theorem claim_C5_unchanged_refresh (o o' : GoOptions) (env : RunEnv) (etag : List Char)
    (h : o.resolve = .ok o')
    (hf : ¬ (env.now - (readInfo env.cacheGet).checkTime < o'.frequency))
    (he : env.fetch (readInfo env.cacheGet).etag = .ok ([], etag)) :
    doWork o env = ⟨finalize o.version (readInfo env.cacheGet).version, none,
      (readInfo env.cacheGet).version, true, true,
      [{ checkTime := env.now, version := (readInfo env.cacheGet).version, etag := etag }]⟩ := by
  rw [doWork_unchanged h env hf he, (resolve_ok_facts h).1]

/-- C5 (witness): the unchanged-signal refresh at a concrete stale run. -/
theorem claim_C5_unchanged_refresh_witness :
    doWork exOptions exEnvEmpty = ⟨finalize exOptions.version
        (readInfo exEnvEmpty.cacheGet).version, none,
      (readInfo exEnvEmpty.cacheGet).version, true, true,
      [{ checkTime := exEnvEmpty.now, version := (readInfo exEnvEmpty.cacheGet).version,
         etag := "E2".data }]⟩ :=
  claim_C5_unchanged_refresh exOptions exResolved exEnvEmpty "E2".data rfl (by decide) rfl

/-- C6: when the cache record is fresh (elapsed strictly below the
interval), the release source is never invoked, the candidate answer is
the cached last-known version, and the run's outcome is identical for
every possible release source. -/
theorem claim_C6_fresh_no_fetch (o o' : GoOptions) (env : RunEnv)
    (h : o.resolve = .ok o')
    (hf : env.now - (readInfo env.cacheGet).checkTime < o'.frequency) :
    (doWork o env).releaserInvoked = false ∧
    (doWork o env).candidate = (readInfo env.cacheGet).version ∧
    ∀ fetch2, doWork o { env with fetch := fetch2 } = doWork o env := by
  have h1 := doWork_fresh h env hf
  refine ⟨by rw [h1], by rw [h1], ?_⟩
  intro fetch2
  have h2 := doWork_fresh h { env with fetch := fetch2 } hf
  rw [h1, h2]

/-- C6 (witness): a fresh run at a concrete environment. -/
theorem claim_C6_fresh_no_fetch_witness :
    (doWork exOptions exEnvFresh).releaserInvoked = false ∧
    (doWork exOptions exEnvFresh).candidate = (readInfo exEnvFresh.cacheGet).version ∧
    ∀ fetch2, doWork exOptions { exEnvFresh with fetch := fetch2 } =
      doWork exOptions exEnvFresh :=
  claim_C6_fresh_no_fetch exOptions exResolved exEnvFresh rfl (by decide)

/-- C7 (counterexample): the claim says `cmp` is invariant under adding
or removing any single non-digit leading prefix character. Adding the
non-digit prefix x to 1.0.0 changes the comparison against v1.0.0 from a
tie to strictly-less, because only the prefix v is tolerated. -/
theorem claim_C7_counterexample :
    Semver.goIsDigit 'x' = false ∧
    cmp ('x' :: "1.0.0".data) "v1.0.0".data ≠ cmp "1.0.0".data "v1.0.0".data := by
  refine ⟨by decide, by decide⟩

/-- C7 (amended): `cmp` is invariant under adding or removing the
specific prefix character v on either operand, provided the unprefixed
tag does not itself start with v. -/
theorem claim_C7_amended (t u : List Char) (h : t.head? ≠ some 'v') :
    cmp ('v' :: t) u = cmp t u ∧ cmp u ('v' :: t) = cmp u t := by
  cases t with
  | nil =>
    constructor
    · show Semver.compare (maybeV ['v']) (maybeV u) = Semver.compare (maybeV []) (maybeV u)
      have h1 : maybeV ['v'] = ['v'] := rfl
      have h2 : maybeV ([] : List Char) = [] := rfl
      rw [h1, h2]
      unfold Semver.compare
      have hv : Semver.parse ['v'] = none := rfl
      have hn : Semver.parse ([] : List Char) = none := rfl
      rw [hv, hn]
    · show Semver.compare (maybeV u) (maybeV ['v']) = Semver.compare (maybeV u) (maybeV [])
      have h1 : maybeV ['v'] = ['v'] := rfl
      have h2 : maybeV ([] : List Char) = [] := rfl
      rw [h1, h2]
      unfold Semver.compare
      have hv : Semver.parse ['v'] = none := rfl
      have hn : Semver.parse ([] : List Char) = none := rfl
      rw [hv, hn]
  | cons c cs =>
    have hc : c ≠ 'v' := fun hh => h (by rw [hh]; rfl)
    have hmv : maybeV (c :: cs) = 'v' :: c :: cs := by
      show (if c ≠ 'v' then 'v' :: c :: cs else c :: cs) = 'v' :: c :: cs
      rw [if_pos hc]
    have hmv2 : maybeV ('v' :: c :: cs) = 'v' :: c :: cs := by
      show (if ('v' : Char) ≠ 'v' then 'v' :: 'v' :: c :: cs else 'v' :: c :: cs) =
        'v' :: c :: cs
      rw [if_neg (by simp)]
    constructor
    · show Semver.compare (maybeV ('v' :: c :: cs)) (maybeV u) =
        Semver.compare (maybeV (c :: cs)) (maybeV u)
      rw [hmv, hmv2]
    · show Semver.compare (maybeV u) (maybeV ('v' :: c :: cs)) =
        Semver.compare (maybeV u) (maybeV (c :: cs))
      rw [hmv, hmv2]

/-- C7 (witness): adding the prefix v to 1.0.0 leaves both comparisons
with v1.0.0 unchanged. -/
theorem claim_C7_amended_witness :
    cmp ('v' :: "1.0.0".data) "v1.0.0".data = cmp "1.0.0".data "v1.0.0".data ∧
    cmp "v1.0.0".data ('v' :: "1.0.0".data) = cmp "v1.0.0".data "1.0.0".data :=
  claim_C7_amended "1.0.0".data "v1.0.0".data (by decide)

/-- C8: a configuration error is surfaced before any work (no cache
read, no fetch, no cache write) and wraps ErrMisconfiguredOptions; when
resolution succeeds, the run never surfaces an error, whatever the cache
read, fetch and cache write outcomes are. -/
theorem claim_C8_only_config_errors (o : GoOptions) (env : RunEnv) :
    (∀ e, o.resolve = .error e →
      doWork o env = errOutput e ∧ e.wrapsMisconfigured = true) ∧
    (∀ o', o.resolve = .ok o' → (doWork o env).err = none) := by
  constructor
  · intro e he
    exact ⟨doWork_err he env, rfl⟩
  · intro o' ho
    by_cases hf : env.now - (readInfo env.cacheGet).checkTime < o'.frequency
    · rw [doWork_fresh ho env hf]
    · cases hfe : env.fetch (readInfo env.cacheGet).etag with
      | error u =>
        cases u
        rw [doWork_fetch_error ho env hf hfe]
      | ok pr =>
        obtain ⟨rels, etag⟩ := pr
        by_cases hne : rels = []
        · subst hne
          rw [doWork_unchanged ho env hf hfe]
        · rw [doWork_nonempty ho env hf hfe hne]

/-- C8 (witness): misconfigured options (slug and custom release source
both set) yield the config error and nothing else happens. -/
theorem claim_C8_only_config_errors_witness :
    doWork exOptionsBad exEnv = errOutput .releaserAndSlugSet ∧
    GoError.wrapsMisconfigured .releaserAndSlugSet = true :=
  (claim_C8_only_config_errors exOptionsBad exEnv).1 .releaserAndSlugSet rfl

/-- C9: reading the handle twice returns the same value without touching
the channel again: the first read stores the received result in the
handle, the second read returns the stored result, leaves the handle
unchanged, and does not receive from the channel. -/
theorem claim_C9_future_get (f : Future) :
    (((f.get).2.1).get).1 = (f.get).1 ∧
    (((f.get).2.1).get).2.1 = (f.get).2.1 ∧
    (((f.get).2.1).get).2.2 = false ∧
    ((f.get).2.1).r = some (f.get).1 := by
  cases hr : f.r <;> simp [Future.get, hr]

/-- C10: option resolution fills the nil collaborator slots in place, so
when a first check resolves options that carry a non-empty slug with a
nil release source (or a non-empty cache path with a nil cache store), a
second check launched with the resulting options value fails with an
error wrapping ErrMisconfiguredOptions before doing any work. -/
theorem claim_C10_resolve_mutation (o o' : GoOptions) (h : o.resolve = .ok o')
    (hcase : (o.slug ≠ [] ∧ o.releaser = none) ∨ (o.cache ≠ [] ∧ o.cacher = none)) :
    (o'.cacher.isSome = true ∧ o'.releaser.isSome = true) ∧
    ∃ e, o'.resolve = .error e ∧ e.wrapsMisconfigured = true ∧
      ∀ env, doWork o' env = errOutput e := by
  obtain ⟨_, _, _, hc, hrl⟩ := resolve_ok_facts h
  have hs : o.slug ≠ [] ∨ o.cache ≠ [] := by
    rcases hcase with ⟨h1, _⟩ | ⟨h1, _⟩
    · exact Or.inl h1
    · exact Or.inr h1
  obtain ⟨e, he⟩ := resolve_again_errors h hs
  exact ⟨⟨hc, hrl⟩, e, he, rfl, fun env => doWork_err he env⟩

/-- C10 (witness): the concrete slug-only options resolve once, and the
resolved value fails to resolve again. -/
theorem claim_C10_resolve_mutation_witness :
    (exResolved.cacher.isSome = true ∧ exResolved.releaser.isSome = true) ∧
    ∃ e, exResolved.resolve = .error e ∧ e.wrapsMisconfigured = true ∧
      ∀ env, doWork exResolved env = errOutput e :=
  claim_C10_resolve_mutation exOptions exResolved rfl (Or.inl ⟨by decide, rfl⟩)

end Whatsnew

section SanityChecks

open Whatsnew

example : Whatsnew.cmp "v1.0.0".data "v1.0.1".data = -1 := by decide
example : Whatsnew.cmp "1.0.0".data "v1.0.0".data = 0 := by decide
example : Whatsnew.cmp "v1.0.0-alpha".data "v1.0.0".data = -1 := by decide
example : Whatsnew.cmp "v1.0.0-alpha.2".data "v1.0.0-alpha.11".data = -1 := by decide
example : Whatsnew.cmp "v1.0.0-alpha.beta".data "v1.0.0-alpha.2".data = 1 := by decide
example : Whatsnew.cmp "v1.0.0+x".data "v1.0.0+y".data = 0 := by decide
example : Whatsnew.cmp "x1.0.0".data "v1.0.0".data = -1 := by decide
example : Whatsnew.cmp "".data "v0.0.1".data = -1 := by decide
example : isValid "v1.2".data = true := by decide
example : isValid "v1.2.3.4".data = false := by decide
example : isValid "v01.2.3".data = false := by decide
example : isValid "v1.2.3-0a".data = true := by decide
example : isValid "v1.2.3-01".data = false := by decide
example : isValid "v1.2.3+01".data = true := by decide
example : isPrerelease "1.2.3-rc.1".data = true := by decide
example : isPrerelease "v1.2.3".data = false := by decide
example : selectNewVer
    [⟨false, false, "v1.0.1".data⟩, ⟨false, false, "v1.1.1".data⟩,
     ⟨false, false, "v1.0.2".data⟩] = "v1.1.1".data := by decide
example : selectNewVer [⟨true, false, "v1.0.1".data⟩] = [] := by decide

end SanityChecks
